import Mathlib

/-!
Verification development for the bq-sync-fs-multicol extension.

The consolidation algorithm (`syncTrackerToMainTable` in
`functions/src/index.ts`) is embedded as pure functions over an abstract
tracker log: rows of the tracker table become `Entry` values, rows of the
main table become `Row` values, and the SQL transaction (temp-table
aggregation, INSERT, DELETE, UPDATE) becomes `reconcile`.  Timestamps are
modelled as `Nat`; the per-type value serialization round-trips used by the
SQL (ARRAY_TO_STRING/SPLIT, TO_JSON_STRING/PARSE_JSON) are modelled as the
identity on an abstract value domain `V`, since the claims under study
quantify over which values are aggregated, not their wire encoding.

The field-coercion engine (`formatDocument` in
`functions/src/utils/format-document.ts` together with `safeFloat`) is
embedded over a tagged value type `JSValue`.  Finite JavaScript numbers
are idealized as exact rationals (`ℚ`) — decimal parsing and `toFixed`
rounding are exact instead of rounding to the nearest binary64 double —
while the two Infinity doubles and NaN are explicit values: `parseFloat`
produces them for the `Infinity` literal and for decimal literals at or
beyond the double overflow threshold, and the coercion cases propagate
them the way the JavaScript checks (`!value`, `typeof`, `Number.isInteger`,
`toFixed`) do.
-/

/-- Change kinds recorded in the tracker table (`ChangeType` enum). -/
inductive ChangeType : Type
  | created
  | updated
  | deleted
deriving DecidableEq, Repr

/-- A tracker-table row: `changeType`, `timestamp`, `documentId`, plus one
column per configured field, looked up by column name (a `none` value is a
SQL NULL). -/
structure Entry (V : Type) : Type where
  changeType : ChangeType
  timestamp : Nat
  documentId : String
  value : String → Option V

/-- A main-table row: `documentId` plus one column per configured field. -/
structure Row (V : Type) : Type where
  documentId : String
  value : String → Option V

/-- `timestamp BETWEEN startTime AND endTime` in the consolidation query:
BigQuery `BETWEEN` is inclusive at both endpoints. -/
def inWindow (s e t : Nat) : Bool :=
  decide (s ≤ t) && decide (t ≤ e)

/-- The correlated subquery
`COALESCE((SELECT MAX(timestamp) ... WHERE documentId = d AND
changeType = 'CREATED'), TIMESTAMP('1970-01-01'))`: the greatest timestamp
of a CREATED entry for `d` over the whole log, with the epoch sentinel
(modelled as `0`) when none exists.  `maxTs` is `MAX(timestamp)` with the
`COALESCE` sentinel folded in (`MAX` over no rows is NULL, coalesced
to the sentinel). -/
def maxTs {V : Type} (l : List (Entry V)) : Nat :=
  l.foldr (fun x m => max x.timestamp m) 0

/-- See `maxTs`: the latest-CREATED timestamp used by the temp-table
`WHERE` clause. -/
def latestCreated {V : Type} (log : List (Entry V)) (d : String) : Nat :=
  maxTs (log.filter (fun x =>
    decide (x.documentId = d) && decide (x.changeType = ChangeType.created)))

/-- The rows of the tracker table that feed the temp-table aggregation for
document `d`: same `documentId`, timestamp at or after the latest CREATED
entry for `d`, and timestamp within the (inclusive) window. -/
def consideredEntries {V : Type} (log : List (Entry V)) (s e : Nat) (d : String) :
    List (Entry V) :=
  log.filter (fun x =>
    decide (x.documentId = d) && decide (latestCreated log d ≤ x.timestamp) &&
      inWindow s e x.timestamp)

/-- The distinct `documentId`s produced by the temp table (`GROUP BY
documentId` over the filtered tracker rows). -/
def aggregatedIds {V : Type} (log : List (Entry V)) (s e : Nat) : List String :=
  ((log.filter (fun x =>
    decide (latestCreated log x.documentId ≤ x.timestamp) &&
      inWindow s e x.timestamp)).map (fun x => x.documentId)).dedup

/-- `COUNTIF(changeType = 'CREATED')` over the window for one document id
(the count subquery is not restricted by the latest-CREATED filter). -/
def createdCount {V : Type} (log : List (Entry V)) (s e : Nat) (d : String) : Nat :=
  log.countP (fun x =>
    decide (x.documentId = d) && decide (x.changeType = ChangeType.created) &&
      inWindow s e x.timestamp)

/-- `COUNTIF(changeType = 'DELETED')` over the window for one document id. -/
def deletedCount {V : Type} (log : List (Entry V)) (s e : Nat) (d : String) : Nat :=
  log.countP (fun x =>
    decide (x.documentId = d) && decide (x.changeType = ChangeType.deleted) &&
      inWindow s e x.timestamp)

/-- Stable insertion of an entry into a timestamp-descending list (an entry
is placed after all entries with a timestamp at least as large). -/
def insertDesc {V : Type} (x : Entry V) : List (Entry V) → List (Entry V)
  | [] => [x]
  | y :: ys => if y.timestamp < x.timestamp then x :: y :: ys else y :: insertDesc x ys

/-- Sort entries by timestamp descending (`ORDER BY timestamp DESC`). -/
def sortDesc {V : Type} : List (Entry V) → List (Entry V)
  | [] => []
  | x :: xs => insertDesc x (sortDesc xs)

/-- `ARRAY_AGG(field IGNORE NULLS ORDER BY timestamp DESC)[OFFSET(0)]` for
one document id and one column: the first non-null value in
timestamp-descending order among the considered entries, or NULL when every
considered entry has NULL in that column. -/
def aggField {V : Type} (log : List (Entry V)) (s e : Nat) (d k : String) : Option V :=
  ((sortDesc (consideredEntries log s e d)).filterMap (fun x => x.value k)).head?

/-- `EXISTS (SELECT 1 FROM mainTable i WHERE i.documentId = d)`. -/
def rowExists {V : Type} (table : List (Row V)) (d : String) : Bool :=
  table.any (fun r => decide (r.documentId = d))

/-- Number of main-table rows carrying a given document id. -/
def idCount {V : Type} (table : List (Row V)) (d : String) : Nat :=
  table.countP (fun r => decide (r.documentId = d))

/-- The row built by the INSERT statement for an aggregated id: the
aggregated value for each configured column, nothing elsewhere. -/
def insertedRow {V : Type} (log : List (Entry V)) (s e : Nat) (keys : List String)
    (d : String) : Row V :=
  ⟨d, fun k => if keys.contains k then aggField log s e d k else none⟩

/-- The UPDATE statement's effect on one row:
`SET key = IF(n.key IS NOT NULL, n.key, i.key)` for every configured
column; columns outside the schema are untouched. -/
def updateRow {V : Type} (log : List (Entry V)) (s e : Nat) (keys : List String)
    (r : Row V) : Row V :=
  ⟨r.documentId, fun k =>
    if keys.contains k then
      match aggField log s e r.documentId k with
      | some v => some v
      | none => r.value k
    else r.value k⟩

/-- The SQL transaction of `syncTrackerToMainTable`, applied to a main
table: INSERT rows for aggregated ids with `createdCount > deletedCount`
and no existing row; DELETE rows of aggregated ids with
`deletedCount > createdCount`; UPDATE every remaining row whose id was
aggregated, field-by-field, keeping the old value where the aggregate is
NULL. -/
def reconcile {V : Type} (log : List (Entry V)) (s e : Nat) (keys : List String)
    (table : List (Row V)) : List (Row V) :=
  let ids := aggregatedIds log s e
  let afterInsert := table ++
    ((ids.filter (fun d =>
      decide (deletedCount log s e d < createdCount log s e d) &&
        !rowExists table d)).map (insertedRow log s e keys))
  let afterDelete := afterInsert.filter (fun r =>
    !(ids.contains r.documentId &&
      decide (createdCount log s e r.documentId < deletedCount log s e r.documentId)))
  afterDelete.map (fun r =>
    if ids.contains r.documentId then updateRow log s e keys r else r)

/-- The persisted per-configuration state: the `lastRunDate` checkpoint
from the `bq-sync` settings document, and the main table. -/
structure SyncState (V : Type) : Type where
  checkpoint : Option Nat
  table : List (Row V)

/-- First-run sentinel: `DateTime.now().minus({years: 100})`, modelled as
the earliest representable time. -/
def farPast : Nat := 0

/-- One invocation of `syncTrackerToMainTable` for one configuration.
`endTime` is `DateTime.now()` captured at the start of the run and
`finishTime` is the later `DateTime.now()` written to `lastRunDate` after
the query job succeeds; `success` records whether the query job completed
(on failure the settings write is never reached, so the state is
unchanged). -/
def runOnce {V : Type} (log : List (Entry V)) (keys : List String)
    (st : SyncState V) (endTime finishTime : Nat) (success : Bool) : SyncState V :=
  if success then
    ⟨some finishTime, reconcile log (st.checkpoint.getD farPast) endTime keys st.table⟩
  else st

/-- The backfill pagination loop shared by `backfillCollection` and
`backfillCollectionGroup`, over an abstract ordered document set.  The
page size is `b + 1` (positive, as in the source where it is 500): each
round fetches `(b + 1) + 1` documents, coerces the first `b + 1`
(`formatDocument` failures contribute nothing — modelled by
`coerce` returning `none`), stops when the page contributed zero rows,
and otherwise continues from the extra document (`startAt` is inclusive).
The returned list is every row handed to the bulk insert. -/
def backfillLoop {D R : Type} (coerce : D → Option R) (b : Nat)
    (docs : List D) : List R :=
  let rows := (docs.take (b + 1)).filterMap coerce
  if rows.isEmpty then []
  else if _h : b + 1 < docs.length then
    rows ++ backfillLoop coerce b (docs.drop (b + 1))
  else rows
termination_by docs.length
decreasing_by
  simp only [List.length_drop]
  omega

/-- A JavaScript value as handled by `formatDocument`: finite numbers are
idealized as exact rationals, and the two Infinity doubles (`vinf false`
is `+Infinity`, `vinf true` is `-Infinity`) and NaN are explicit values
of their own. -/
inductive JSValue : Type
  | vundef
  | vnull
  | vbool (b : Bool)
  | vnum (q : ℚ)
  | vinf (neg : Bool)
  | vnan
  | vstr (s : String)
  | varr (l : List JSValue)
  | vobj (l : List (String × JSValue))

/-- JavaScript falsiness for the modelled values (`undefined`, `null`,
`false`, `0`, `NaN`, and the empty string; the infinities, arrays and
objects are truthy). -/
def jsFalsy : JSValue → Bool
  | JSValue.vundef => true
  | JSValue.vnull => true
  | JSValue.vbool b => !b
  | JSValue.vnum q => decide (q = 0)
  | JSValue.vinf _ => false
  | JSValue.vnan => true
  | JSValue.vstr s => decide (s = "")
  | JSValue.varr _ => false
  | JSValue.vobj _ => false

/-- `typeof v === 'object'` (true for objects, arrays and `null`). -/
def isObjectType : JSValue → Bool
  | JSValue.vobj _ => true
  | JSValue.varr _ => true
  | JSValue.vnull => true
  | _ => false

/-- Optional per-field transform (`track.method`): applied when configured,
identity otherwise. -/
def applyMethod (m : Option (JSValue → JSValue)) (v : JSValue) : JSValue :=
  match m with
  | some f => f v
  | none => v

/-- Numeric value of a digit string. -/
def digitsVal (ds : List Char) : Nat :=
  ds.foldl (fun a c => a * 10 + (c.toNat - 48)) 0

/-- A JavaScript number as produced by `parseFloat`: a finite value (kept
as an exact rational), one of the two Infinity doubles, or NaN. -/
inductive JSNum : Type
  | finite (q : ℚ)
  | inf (neg : Bool)
  | nan
deriving DecidableEq

/-- Exponent suffix of a decimal literal: optional sign and digits; an
empty digit run means the `e` was trailing junk (exponent 0). -/
def expVal (t : List Char) : Int :=
  let se : Bool × List Char :=
    match t with
    | '-' :: u => (true, u)
    | '+' :: u => (false, u)
    | _ => (false, t)
  let ds := se.2.takeWhile Char.isDigit
  if ds.isEmpty then 0
  else if se.1 then -(digitsVal ds : Int) else (digitsVal ds : Int)

/-- JavaScript `parseFloat`: skip leading whitespace, optional sign, then
either the `Infinity` literal or a decimal literal
`digits [. digits] [e|E [sign] digits]`; trailing characters are ignored,
and no parsable prefix yields NaN.  A parsed decimal whose magnitude is at
least `2^1024 - 2^970` — the smallest value that binary64
round-to-nearest-even sends to Infinity — parses as the signed Infinity
(so `"1e400"` parses as `+Infinity`); smaller magnitudes are kept exact
rather than rounded to the nearest double. -/
def parseFloat (s : String) : JSNum :=
  let cs := s.toList.dropWhile (fun c => c = ' ' || c = '\t' || c = '\n')
  let signed : Bool × List Char :=
    match cs with
    | '-' :: t => (true, t)
    | '+' :: t => (false, t)
    | _ => (false, cs)
  match signed.2 with
  | 'I' :: 'n' :: 'f' :: 'i' :: 'n' :: 'i' :: 't' :: 'y' :: _ => JSNum.inf signed.1
  | rest =>
    let intds := rest.takeWhile Char.isDigit
    let rest1 := rest.dropWhile Char.isDigit
    let fracds :=
      match rest1 with
      | '.' :: t => t.takeWhile Char.isDigit
      | _ => []
    if intds.isEmpty && fracds.isEmpty then JSNum.nan
    else
      let rest2 :=
        match rest1 with
        | '.' :: t => t.dropWhile Char.isDigit
        | _ => rest1
      let expPart : Int :=
        match rest2 with
        | 'e' :: t => expVal t
        | 'E' :: t => expVal t
        | _ => 0
      let mant : Nat := digitsVal intds * 10 ^ fracds.length + digitsVal fracds
      let scale : Int := expPart - (fracds.length : Int)
      let overflow : Bool :=
        if 0 ≤ scale then
          decide (2 ^ 1024 - 2 ^ 970 ≤ mant * 10 ^ scale.toNat)
        else decide ((2 ^ 1024 - 2 ^ 970) * 10 ^ (-scale).toNat ≤ mant)
      if overflow then JSNum.inf signed.1
      else
        let mag : ℚ :=
          if 0 ≤ scale then ((mant * 10 ^ scale.toNat : Nat) : ℚ)
          else (mant : ℚ) / ((10 : ℚ) ^ (-scale).toNat)
        JSNum.finite (if signed.1 then -mag else mag)

/-- `parseFloat(value.toFixed(2))` on the rational model: round to the
nearest hundredth, ties toward the larger value (ECMA `toFixed` picks the
larger candidate on a tie). -/
def round2 (q : ℚ) : ℚ :=
  (⌊q * 100 + 1 / 2⌋ : ℚ) / 100

/-- `safeFloat` from `functions/src/utils/safe-float.ts`, on an actual
number: integers pass through, everything else is rounded to two decimal
places.  (The function's `null` branch is reached only for the NaN/`null`
inputs, which the callers below map to `vnull` before this point.) -/
def safeFloat (q : ℚ) : ℚ :=
  if q.den = 1 then q else round2 q

/-- Tail of the `NUMERIC`/`FLOAT64`/`INT64` case once a number is in
hand: NaN is falsy and not `0`, so `value = null` (and `safeFloat(null)`
is `null`); an Infinity double passes the falsy and `typeof` checks and
survives `safeFloat` unchanged (`Number.isInteger(Infinity)` is false and
`parseFloat(Infinity.toFixed(2))` is `Infinity` again); a finite number
goes through `safeFloat`. -/
def numFinish : JSNum → JSValue
  | JSNum.nan => JSValue.vnull
  | JSNum.inf neg => JSValue.vinf neg
  | JSNum.finite q => JSValue.vnum (safeFloat q)

/-- The `NUMERIC`/`FLOAT64`/`INT64` case of `formatDocument`: apply the
transform, parse strings with `parseFloat`, send falsy-but-not-zero and
non-number results to `null`, then `safeFloat` (see `numFinish` for the
NaN/Infinity paths). -/
def coerceNumericField (m : Option (JSValue → JSValue)) (v : JSValue) : JSValue :=
  match applyMethod m v with
  | JSValue.vstr s => numFinish (parseFloat s)
  | JSValue.vnum q => numFinish (JSNum.finite q)
  | JSValue.vinf neg => numFinish (JSNum.inf neg)
  | JSValue.vnan => numFinish JSNum.nan
  | _ => JSValue.vnull

/-- Normalization at the head of the `ARRAY` case: arrays pass through;
a falsy non-array other than `false` and `0` becomes the empty array; any
other non-array is wrapped as a one-element array. -/
def normArr (v : JSValue) : List JSValue :=
  match v with
  | JSValue.varr l => l
  | JSValue.vbool b => [JSValue.vbool b]
  | JSValue.vnum q => [JSValue.vnum q]
  | other => if jsFalsy other then [] else [other]

/-- Contribution of one element to a one-level spread: an array
contributes its elements, anything else contributes itself. -/
def asList : JSValue → List JSValue
  | JSValue.varr a => a
  | x => [x]

/-- One-level array spreading, as performed both by
`[].concat(...xs)` and by `Array.prototype.flat()`: array elements
contribute their elements, anything else is kept as is. -/
def spread1 : List JSValue → List JSValue
  | [] => []
  | y :: t => asList y ++ spread1 t

/-- `x` is contributed by `y` under a one-level flatten: either `y` is an
array containing `x`, or `y` is not an array and is `x` itself. -/
def spreadsTo (y x : JSValue) : Prop :=
  (∃ a, y = JSValue.varr a ∧ x ∈ a) ∨ ((∀ a, y ≠ JSValue.varr a) ∧ x = y)

/-- JSON-pointer segments of a path such as `/a/b` (the `json-pointer`
library used by the `formater` option). -/
def ptrSegs (p : String) : List String :=
  (p.splitOn "/").drop 1

/-- JSON-pointer lookup: object segments select by key, array segments by
decimal index. -/
def ptrGet : JSValue → List String → Option JSValue
  | v, [] => some v
  | JSValue.vobj l, sg :: rest =>
    match l.find? (fun p => decide (p.1 = sg)) with
    | some pr => ptrGet pr.2 rest
    | none => none
  | JSValue.varr a, sg :: rest =>
    match sg.toNat? with
    | some i =>
      match a[i]? with
      | some x => ptrGet x rest
      | none => none
    | none => none
  | _, _ :: _ => none

/-- `has(v, pointer)` of the `json-pointer` library. -/
def ptrHas (v : JSValue) (p : String) : Bool :=
  (ptrGet v (ptrSegs p)).isSome

/-- The `ARRAY` case of `formatDocument` up to (but not including) the
final `.filter(Boolean).flat()`: normalization, then the optional
`formater` extraction (per object element, transform applied per extracted
element, spread one level by `[].concat`), then the optional transform
applied again per element. -/
def preArray (formater : Option String) (m : Option (JSValue → JSValue))
    (v : JSValue) : List JSValue :=
  let v0 := normArr v
  let v1 :=
    match formater with
    | none => v0
    | some p =>
      spread1 (v0.map (fun el =>
        let val :=
          if isObjectType el && ptrHas el p then (ptrGet el (ptrSegs p)).getD el
          else el
        applyMethod m val))
  match m with
  | some f => v1.map f
  | none => v1

/-- The `ARRAY` case of `formatDocument`: the staged list above followed by
`.filter(Boolean).flat()` — falsy elements are removed first, and only
then is the result flattened one level. -/
def coerceArrayField (formater : Option String) (m : Option (JSValue → JSValue))
    (v : JSValue) : JSValue :=
  JSValue.varr (spread1 ((preArray formater m v).filter (fun x => !jsFalsy x)))

/-- Whether a value is JavaScript `undefined`. -/
def isUndef : JSValue → Bool
  | JSValue.vundef => true
  | _ => false

/-- Decimal-less rendering of a rational for the JSON serializer model
(integers print exactly; the non-integer rendering differs textually from
JavaScript's shortest-decimal form, which no claim depends on). -/
def ratRepr (q : ℚ) : String :=
  if q.den = 1 then toString q.num
  else toString q.num ++ "/" ++ toString q.den

/-- `JSON.stringify` body for defined values: `undefined` appearing inside
an array serializes as `null`, object entries whose value is `undefined`
are dropped, and the Infinity doubles and NaN serialize as `null`. String
escaping is omitted (no claim depends on it). -/
def jsonRepr : JSValue → String
  | JSValue.vundef => "null"
  | JSValue.vnull => "null"
  | JSValue.vbool b => if b then "true" else "false"
  | JSValue.vnum q => ratRepr q
  | JSValue.vinf _ => "null"
  | JSValue.vnan => "null"
  | JSValue.vstr s => "\"" ++ s ++ "\""
  | JSValue.varr l =>
    "[" ++ String.intercalate "," (l.attach.map (fun x => jsonRepr x.1)) ++ "]"
  | JSValue.vobj l =>
    "\x7b" ++
      String.intercalate ","
        (((l.filter (fun p => !isUndef p.2)).attach).map
          (fun p => "\"" ++ p.1.1 ++ "\":" ++ jsonRepr p.1.2)) ++
      "\x7d"
decreasing_by
  · have h := List.sizeOf_lt_of_mem x.2
    simp only [JSValue.varr.sizeOf_spec]
    omega
  · obtain ⟨⟨a, b⟩, hp⟩ := p
    have h := List.sizeOf_lt_of_mem (List.mem_of_mem_filter hp)
    simp only [Prod.mk.sizeOf_spec] at h
    simp only [JSValue.vobj.sizeOf_spec]
    omega

/-- `JSON.stringify`: `undefined` (and nothing else in the modelled value
space) yields no string. -/
def jsonStringify (v : JSValue) : Option String :=
  match v with
  | JSValue.vundef => none
  | _ => some (jsonRepr v)

/-- The `JSON` case of `formatDocument`: apply the transform when
configured, otherwise serialize with `JSON.stringify`; then a result that
is a string, boolean or number primitive (the Infinity doubles and NaN
included — their `typeof` is `'number'`) is replaced by `null`. -/
def coerceJSONField (m : Option (JSValue → JSValue)) (v : JSValue) : JSValue :=
  let v1 :=
    match m with
    | some f => f v
    | none =>
      match jsonStringify v with
      | some s => JSValue.vstr s
      | none => JSValue.vundef
  match v1 with
  | JSValue.vstr _ => JSValue.vnull
  | JSValue.vbool _ => JSValue.vnull
  | JSValue.vnum _ => JSValue.vnull
  | JSValue.vinf _ => JSValue.vnull
  | JSValue.vnan => JSValue.vnull
  | x => x

/-- A list of entries in weakly decreasing timestamp order. -/
def SortedDesc {V : Type} (l : List (Entry V)) : Prop :=
  List.Pairwise (fun a b => b.timestamp ≤ a.timestamp) l

/-- Everything one configuration contributes to a scheduled tick of
`fsUpdatePrimaryTable`: its tracker log, its configured column names, its
persisted state, the two times observed by its run, and whether its
query job succeeds. -/
structure TickInput (V : Type) : Type where
  log : List (Entry V)
  keys : List String
  st : SyncState V
  endTime : Nat
  finishTime : Nat
  success : Bool

/-- The scheduled handler's loop over all configurations: each
configuration is consolidated inside its own try/catch, so every
configuration is processed regardless of the others' outcomes. -/
def runTick {V : Type} (inputs : List (TickInput V)) : List (SyncState V) :=
  inputs.map (fun i => runOnce i.log i.keys i.st i.endTime i.finishTime i.success)

/-- Single-field column assignment used by the concrete tracker fixtures. -/
def vOf (k : String) (n : Nat) : String → Option Nat :=
  fun f => if f = k then some n else none

/-- Tracker log of end-to-end scenario 4: CREATED@1, UPDATED@2, DELETED@3
for document `x` within one window. -/
def logC1 : List (Entry Nat) :=
  [⟨ChangeType.created, 1, "x", vOf "f" 10⟩,
   ⟨ChangeType.updated, 2, "x", vOf "f" 20⟩,
   ⟨ChangeType.deleted, 3, "x", fun _ => none⟩]

/-- Tracker log of end-to-end scenario 5: two CREATED entries, no DELETED,
for a previously absent document. -/
def logC2 : List (Entry Nat) :=
  [⟨ChangeType.created, 1, "x", vOf "f" 10⟩,
   ⟨ChangeType.created, 2, "x", vOf "f" 20⟩]

/-- Tracker log holding a single DELETED entry for `x` at time 5. -/
def logC3 : List (Entry Nat) :=
  [⟨ChangeType.deleted, 5, "x", fun _ => none⟩]

/-- A main table holding one row for `x` with field `f` set to 1. -/
def tableC3 : List (Row Nat) :=
  [⟨"x", vOf "f" 1⟩]

/-- Tracker log holding a single UPDATED entry for `x` at time 5 (so both
counts are zero for the window `[0, 10]`). -/
def logC3w : List (Entry Nat) :=
  [⟨ChangeType.updated, 5, "x", vOf "f" 7⟩]

/-- Tracker log with a single CREATED entry exactly at the window's end
time 10. -/
def logC4 : List (Entry Nat) :=
  [⟨ChangeType.created, 10, "x", vOf "f" 10⟩]

/-- Tracker log with an entry recorded at time 11, between a run's window
end 10 and the run's completion time 12. -/
def logC5 : List (Entry Nat) :=
  [⟨ChangeType.created, 11, "x", vOf "f" 10⟩]

/-- Tracker log for a document deleted and re-created: the value recorded
before the latest CREATED entry (111 at time 1) belongs to the prior
incarnation. -/
def logC9 : List (Entry Nat) :=
  [⟨ChangeType.created, 1, "x", vOf "f" 111⟩,
   ⟨ChangeType.deleted, 2, "x", fun _ => none⟩,
   ⟨ChangeType.created, 5, "x", vOf "f" 222⟩]

/-- A backfill coercion over `Nat` documents that fails on document 1 and
succeeds elsewhere. -/
def coerceC10 : Nat → Option Nat :=
  fun n => if n = 1 then none else some n


/-! ## Generic list lemmas used by the consolidation proofs -/

theorem countP_le_one_unique {α : Type} {p : α → Bool} :
    ∀ {l : List α}, l.countP p ≤ 1 → ∀ {a b : α}, a ∈ l → b ∈ l →
      p a = true → p b = true → a = b := by
  intro l
  induction l with
  | nil => intro _ a b ha; cases ha
  | cons x t ih =>
    intro hc a b ha hb hpa hpb
    rw [List.countP_cons] at hc
    have htzero : p x = true → t.countP p = 0 := by
      intro hx
      have h1 : (if p x = true then 1 else 0) = 1 := by rw [hx]; rfl
      omega
    have hnott : p x = true → ∀ y ∈ t, ¬p y = true := by
      intro hx y hy hpy
      have hpos : 0 < t.countP p := List.countP_pos_iff.mpr ⟨y, hy, hpy⟩
      have := htzero hx
      omega
    rcases List.mem_cons.mp ha with rfl | hat
    · rcases List.mem_cons.mp hb with rfl | hbt
      · rfl
      · exact absurd hpb (hnott hpa b hbt)
    · rcases List.mem_cons.mp hb with rfl | hbt
      · exact absurd hpa (hnott hpb a hat)
      · have hct : t.countP p ≤ 1 := by
          rcases Bool.eq_false_or_eq_true (p x) with hx | hx
          · have := htzero hx
            omega
          · have h1 : (if p x = true then 1 else 0) = 0 := by rw [hx]; simp
            omega
        exact ih hct hat hbt hpa hpb

theorem idCount_map_pres {V : Type} (f : Row V → Row V)
    (hf : ∀ r, (f r).documentId = r.documentId) (l : List (Row V)) (d : String) :
    idCount (l.map f) d = idCount l d := by
  induction l with
  | nil => rfl
  | cons a t ih =>
    simp only [idCount, List.map_cons, List.countP_cons] at *
    rw [ih, hf]

theorem countP_eq_zero_of_all {α : Type} {p : α → Bool} :
    ∀ {l : List α}, (∀ a ∈ l, p a = false) → l.countP p = 0 := by
  intro l
  induction l with
  | nil => intro _; rfl
  | cons x t ih =>
    intro h
    rw [List.countP_cons, h x (List.mem_cons_self x t),
      ih (fun a ha => h a (List.mem_cons_of_mem x ha))]
    simp

theorem countP_ext {α : Type} {p q : α → Bool} :
    ∀ {l : List α}, (∀ a ∈ l, p a = q a) → l.countP p = l.countP q := by
  intro l
  induction l with
  | nil => intro _; rfl
  | cons x t ih =>
    intro h
    rw [List.countP_cons, List.countP_cons, h x (List.mem_cons_self x t),
      ih (fun a ha => h a (List.mem_cons_of_mem x ha))]

theorem idCount_cons {V : Type} (a : Row V) (l : List (Row V)) (d : String) :
    idCount (a :: l) d = idCount l d + (if a.documentId = d then 1 else 0) := by
  simp [idCount, List.countP_cons]

theorem idCount_filter_key {V : Type} (g : Row V → Bool) (G : String → Bool)
    (hg : ∀ r, g r = G r.documentId) (l : List (Row V)) (d : String) :
    idCount (l.filter g) d = if G d then idCount l d else 0 := by
  induction l with
  | nil => cases G d <;> simp [idCount]
  | cons a t ih =>
    rw [List.filter_cons]
    by_cases had : a.documentId = d
    · have hga : g a = G d := by rw [hg, had]
      cases hGd : G d with
      | true =>
        rw [hGd] at hga
        simp [hga, idCount_cons, ih, hGd, had]
      | false =>
        rw [hGd] at hga
        simp only [hga, Bool.false_eq_true, if_false, ih, hGd]
    · have hcount : ∀ m : List (Row V), idCount (a :: m) d = idCount m d := by
        intro m
        rw [idCount_cons, if_neg had]
        simp
      cases hga : g a with
      | true =>
        simp only [hga, if_true, hcount, ih]
      | false =>
        simp only [hga, Bool.false_eq_true, if_false, ih]
        cases G d with
        | true => simp [hcount]
        | false => simp

theorem idCount_append {V : Type} (l m : List (Row V)) (d : String) :
    idCount (l ++ m) d = idCount l d + idCount m d := by
  simp [idCount, List.countP_append]

theorem rowExists_iff {V : Type} (t : List (Row V)) (d : String) :
    rowExists t d = true ↔ ∃ r ∈ t, r.documentId = d := by
  simp [rowExists, List.any_eq_true]

theorem rowExists_iff_idCount {V : Type} (t : List (Row V)) (d : String) :
    rowExists t d = true ↔ idCount t d ≠ 0 := by
  rw [rowExists_iff]
  constructor
  · rintro ⟨r, hr, hd⟩
    have : 0 < idCount t d := List.countP_pos_iff.mpr ⟨r, hr, by simp [hd]⟩
    omega
  · intro h
    have : 0 < idCount t d := Nat.pos_of_ne_zero h
    rcases List.countP_pos_iff.mp this with ⟨r, hr, hp⟩
    exact ⟨r, hr, by simpa using hp⟩

/-! ## Sorting lemmas -/

theorem mem_insertDesc {V : Type} (x y : Entry V) (l : List (Entry V)) :
    y ∈ insertDesc x l ↔ y = x ∨ y ∈ l := by
  induction l with
  | nil => simp [insertDesc]
  | cons a t ih =>
    by_cases h : a.timestamp < x.timestamp
    · simp [insertDesc, h]
    · simp [insertDesc, h, ih]
      tauto

theorem sortedDesc_insertDesc {V : Type} (x : Entry V) (l : List (Entry V))
    (hl : SortedDesc l) : SortedDesc (insertDesc x l) := by
  induction l with
  | nil => simp [insertDesc, SortedDesc]
  | cons a t ih =>
    rcases List.pairwise_cons.mp hl with ⟨ha, ht⟩
    by_cases h : a.timestamp < x.timestamp
    · simp only [insertDesc, h, if_true]
      refine List.pairwise_cons.mpr ⟨?_, hl⟩
      intro y hy
      rcases List.mem_cons.mp hy with rfl | hyt
      · omega
      · have := ha y hyt
        omega
    · simp only [insertDesc, h, if_false]
      refine List.pairwise_cons.mpr ⟨?_, ih ht⟩
      intro y hy
      rcases (mem_insertDesc x y t).mp hy with rfl | hyt
      · omega
      · exact ha y hyt

theorem mem_sortDesc {V : Type} (y : Entry V) (l : List (Entry V)) :
    y ∈ sortDesc l ↔ y ∈ l := by
  induction l with
  | nil => simp [sortDesc]
  | cons a t ih => simp [sortDesc, mem_insertDesc, ih]

theorem sortedDesc_sortDesc {V : Type} (l : List (Entry V)) :
    SortedDesc (sortDesc l) := by
  induction l with
  | nil => simp [sortDesc, SortedDesc]
  | cons a t ih => exact sortedDesc_insertDesc a (sortDesc t) ih

theorem mem_sortDesc_consideredEntries {V : Type} (log : List (Entry V)) (s e : Nat)
    (d : String) (x : Entry V) :
    x ∈ sortDesc (consideredEntries log s e d) ↔ x ∈ consideredEntries log s e d :=
  mem_sortDesc x _

theorem filterMap_head_none {V W : Type} (f : Entry V → Option W) (L : List (Entry V)) :
    (L.filterMap f).head? = none ↔ ∀ x ∈ L, f x = none := by
  rw [List.head?_eq_none_iff, List.filterMap_eq_nil_iff]

theorem filterMap_head_max {V W : Type} (f : Entry V → Option W) :
    ∀ (L : List (Entry V)), SortedDesc L → ∀ {v : W}, (L.filterMap f).head? = some v →
      ∃ x ∈ L, f x = some v ∧
        ∀ y ∈ L, (f y).isSome = true → y.timestamp ≤ x.timestamp := by
  intro L
  induction L with
  | nil => intro _ v h; simp at h
  | cons a t ih =>
    intro hs v h
    rcases List.pairwise_cons.mp hs with ⟨ha, ht⟩
    cases hfa : f a with
    | some w =>
      rw [List.filterMap_cons_some hfa] at h
      simp only [List.head?_cons, Option.some.injEq] at h
      subst h
      refine ⟨a, List.mem_cons_self a t, hfa, ?_⟩
      intro y hy _
      rcases List.mem_cons.mp hy with rfl | hyt
      · exact Nat.le_refl _
      · exact ha y hyt
    | none =>
      rw [List.filterMap_cons_none hfa] at h
      rcases ih ht h with ⟨x, hxt, hfx, hmax⟩
      refine ⟨x, List.mem_cons_of_mem a hxt, hfx, ?_⟩
      intro y hy hsy
      rcases List.mem_cons.mp hy with rfl | hyt
      · rw [hfa] at hsy; cases hsy
      · exact hmax y hyt hsy

theorem aggField_none_iff {V : Type} (log : List (Entry V)) (s e : Nat) (d k : String) :
    aggField log s e d k = none ↔
      ∀ x ∈ consideredEntries log s e d, x.value k = none := by
  unfold aggField
  rw [filterMap_head_none]
  constructor
  · intro h x hx
    exact h x ((mem_sortDesc_consideredEntries log s e d x).mpr hx)
  · intro h x hx
    exact h x ((mem_sortDesc_consideredEntries log s e d x).mp hx)

theorem aggField_some_max {V : Type} (log : List (Entry V)) (s e : Nat) (d k : String)
    (v : V) (h : aggField log s e d k = some v) :
    ∃ x ∈ consideredEntries log s e d, x.value k = some v ∧
      ∀ y ∈ consideredEntries log s e d,
        (y.value k).isSome = true → y.timestamp ≤ x.timestamp := by
  rcases filterMap_head_max (fun x => x.value k) (sortDesc (consideredEntries log s e d))
      (sortedDesc_sortDesc _) h with ⟨x, hx, hfx, hmax⟩
  refine ⟨x, (mem_sortDesc_consideredEntries log s e d x).mp hx, hfx, ?_⟩
  intro y hy hsy
  exact hmax y ((mem_sortDesc_consideredEntries log s e d y).mpr hy) hsy

theorem mem_consideredEntries {V : Type} (log : List (Entry V)) (s e : Nat)
    (d : String) (x : Entry V) :
    x ∈ consideredEntries log s e d ↔
      x ∈ log ∧ x.documentId = d ∧ latestCreated log d ≤ x.timestamp ∧
        s ≤ x.timestamp ∧ x.timestamp ≤ e := by
  simp [consideredEntries, List.mem_filter, inWindow, and_assoc]

/-! ## Lemmas about the reconcile transaction -/

theorem count_filter_nodup {q : String → Bool} {d : String} :
    ∀ {l : List String}, l.Nodup →
      (l.filter q).countP (fun x => decide (x = d)) =
        if d ∈ l ∧ q d = true then 1 else 0 := by
  intro l
  induction l with
  | nil => intro _; simp
  | cons a t ih =>
    intro hn
    rcases List.nodup_cons.mp hn with ⟨hna, hnt⟩
    rw [List.filter_cons]
    by_cases had : a = d
    · subst had
      have h0 : (t.filter q).countP (fun x => decide (x = a)) = 0 :=
        countP_eq_zero_of_all (fun y hy => by
          have hyt : y ∈ t := List.mem_of_mem_filter hy
          have hne : ¬(y = a) := fun hya => hna (hya ▸ hyt)
          simp [hne])
      cases haq : q a with
      | true => simp [haq, List.countP_cons, h0]
      | false => simp [haq, h0]
    · have hmm : (d ∈ a :: t ∧ q d = true) ↔ (d ∈ t ∧ q d = true) := by
        constructor
        · rintro ⟨hm, hq⟩
          rcases List.mem_cons.mp hm with rfl | hm'
          · exact absurd rfl had
          · exact ⟨hm', hq⟩
        · rintro ⟨hm, hq⟩
          exact ⟨List.mem_cons_of_mem a hm, hq⟩
      have hda : ¬d = a := fun h => had h.symm
      cases haq : q a with
      | true => simp [haq, List.countP_cons, had, ih hnt, hda]
      | false => simp [haq, ih hnt, hda]

theorem idCount_inserted {V : Type} (log : List (Entry V)) (s e : Nat)
    (keys : List String) (q : String → Bool) (d : String) :
    idCount (((aggregatedIds log s e).filter q).map (insertedRow log s e keys)) d =
      if d ∈ aggregatedIds log s e ∧ q d = true then 1 else 0 := by
  rw [idCount, List.countP_map]
  exact count_filter_nodup (List.nodup_dedup _)

theorem updateRow_documentId {V : Type} (log : List (Entry V)) (s e : Nat)
    (keys : List String) (r : Row V) :
    (updateRow log s e keys r).documentId = r.documentId := rfl

theorem idCount_reconcile {V : Type} (log : List (Entry V)) (s e : Nat)
    (keys : List String) (table : List (Row V)) (d : String) :
    idCount (reconcile log s e keys table) d =
      if (aggregatedIds log s e).contains d &&
          decide (createdCount log s e d < deletedCount log s e d) then 0
      else idCount table d +
        (if d ∈ aggregatedIds log s e ∧
            (decide (deletedCount log s e d < createdCount log s e d) &&
              !rowExists table d) = true then 1 else 0) := by
  unfold reconcile
  rw [idCount_map_pres _ (fun r => by
    by_cases h : ((aggregatedIds log s e).contains r.documentId) = true
    · rw [if_pos h]; rfl
    · rw [if_neg h])]
  rw [idCount_filter_key _
    (fun y => !((aggregatedIds log s e).contains y &&
      decide (createdCount log s e y < deletedCount log s e y)))
    (fun r => rfl)]
  rw [idCount_append, idCount_inserted]
  cases hX : (aggregatedIds log s e).contains d &&
      decide (createdCount log s e d < deletedCount log s e d) with
  | true => simp [hX]
  | false => simp [hX]

theorem mem_reconcile {V : Type} (log : List (Entry V)) (s e : Nat)
    (keys : List String) (table : List (Row V)) (r : Row V) :
    r ∈ reconcile log s e keys table ↔
      ∃ r0, (r0 ∈ table ∨
          r0 ∈ ((aggregatedIds log s e).filter (fun d0 =>
            decide (deletedCount log s e d0 < createdCount log s e d0) &&
              !rowExists table d0)).map (insertedRow log s e keys)) ∧
        ((aggregatedIds log s e).contains r0.documentId &&
          decide (createdCount log s e r0.documentId <
            deletedCount log s e r0.documentId)) = false ∧
        r = (if (aggregatedIds log s e).contains r0.documentId
             then updateRow log s e keys r0 else r0) := by
  unfold reconcile
  constructor
  · intro h
    rcases List.mem_map.mp h with ⟨r0, hr0, hupd⟩
    rcases List.mem_filter.mp hr0 with ⟨hr0m, hkeep⟩
    refine ⟨r0, List.mem_append.mp hr0m, ?_, hupd.symm⟩
    revert hkeep
    cases (aggregatedIds log s e).contains r0.documentId &&
        decide (createdCount log s e r0.documentId <
          deletedCount log s e r0.documentId) <;> simp
  · rintro ⟨r0, hr0m, hkeep, rfl⟩
    refine List.mem_map.mpr ⟨r0, ?_, rfl⟩
    refine List.mem_filter.mpr ⟨List.mem_append.mpr hr0m, ?_⟩
    rw [hkeep]
    rfl

theorem contains_iff_mem (l : List String) (a : String) : l.contains a = true ↔ a ∈ l :=
  List.elem_iff

theorem rowExists_false_iff {V : Type} (t : List (Row V)) (d : String) :
    rowExists t d = false ↔ idCount t d = 0 := by
  constructor
  · intro h
    by_contra hne
    have := (rowExists_iff_idCount t d).mpr hne
    rw [h] at this
    cases this
  · intro h
    cases hr : rowExists t d
    · rfl
    · exact absurd h ((rowExists_iff_idCount t d).mp hr)

theorem idCount_reconcile_cases {V : Type} (log : List (Entry V)) (s e : Nat)
    (keys : List String) (table : List (Row V)) (d : String)
    (hd : d ∈ aggregatedIds log s e) :
    idCount (reconcile log s e keys table) d =
      if createdCount log s e d < deletedCount log s e d then 0
      else idCount table d +
        (if deletedCount log s e d < createdCount log s e d ∧
            rowExists table d = false then 1 else 0) := by
  have hcont : (aggregatedIds log s e).contains d = true := (contains_iff_mem _ _).mpr hd
  rw [idCount_reconcile]
  by_cases hcd : createdCount log s e d < deletedCount log s e d
  · have hX : ((aggregatedIds log s e).contains d &&
        decide (createdCount log s e d < deletedCount log s e d)) = true := by
      rw [hcont]
      simp [hcd]
    rw [hX, if_pos hcd]
    simp
  · have hX : ((aggregatedIds log s e).contains d &&
        decide (createdCount log s e d < deletedCount log s e d)) = false := by
      simp [hcd]
    rw [hX, if_neg hcd]
    simp only [Bool.false_eq_true, if_false]
    congr 1
    by_cases hdc : deletedCount log s e d < createdCount log s e d
    · cases hex : rowExists table d
      · simp [hd, hdc, hex]
      · simp [hd, hdc, hex]
    · simp [hdc]

/-- Claim C1: for every consolidation run and every aggregated document
id, reconciliation inserts a new main-table row with the aggregated field
values if and only if `createdCount > deletedCount` and no row for that id
exists; it deletes the existing row if and only if
`deletedCount > createdCount` and a row exists; and when the counts tie
and no prior row exists, neither an insert nor a delete occurs and the id
stays absent from the main table. -/
theorem C1_insert_delete_tiebreak {V : Type} (log : List (Entry V)) (s e : Nat)
    (keys : List String) (table : List (Row V)) (d : String)
    (hd : d ∈ aggregatedIds log s e)
    (hu : idCount table d ≤ 1) :
    (rowExists table d = false →
      (rowExists (reconcile log s e keys table) d = true ↔
        deletedCount log s e d < createdCount log s e d)) ∧
    (rowExists table d = true →
      (rowExists (reconcile log s e keys table) d = false ↔
        createdCount log s e d < deletedCount log s e d)) ∧
    (createdCount log s e d = deletedCount log s e d →
      rowExists table d = false →
      rowExists (reconcile log s e keys table) d = false) ∧
    (deletedCount log s e d < createdCount log s e d →
      rowExists table d = false →
      idCount (reconcile log s e keys table) d = 1 ∧
      ∀ r ∈ reconcile log s e keys table, r.documentId = d →
        ∀ k : String, r.value k =
          (if keys.contains k then aggField log s e d k else none)) := by
  have hcont : (aggregatedIds log s e).contains d = true := (contains_iff_mem _ _).mpr hd
  have master := idCount_reconcile_cases log s e keys table d hd
  refine ⟨?_, ?_, ?_, ?_⟩
  · intro hnex
    have h0 : idCount table d = 0 := (rowExists_false_iff table d).mp hnex
    constructor
    · intro hex
      have hne := (rowExists_iff_idCount _ _).mp hex
      by_contra hdc
      by_cases hcd : createdCount log s e d < deletedCount log s e d
      · rw [master, if_pos hcd] at hne
        exact hne rfl
      · rw [master, if_neg hcd] at hne
        simp [hdc, h0] at hne
    · intro hdc
      have hcd : ¬createdCount log s e d < deletedCount log s e d := Nat.lt_asymm hdc
      have h1 : idCount (reconcile log s e keys table) d = 1 := by
        rw [master, if_neg hcd, h0]
        simp [hdc, hnex]
      exact (rowExists_iff_idCount _ _).mpr (by omega)
  · intro hex
    have hne := (rowExists_iff_idCount _ _).mp hex
    have hpos : 0 < idCount table d := Nat.pos_of_ne_zero hne
    constructor
    · intro hfin
      have h0 : idCount (reconcile log s e keys table) d = 0 :=
        (rowExists_false_iff _ _).mp hfin
      by_contra hcd
      rw [master, if_neg hcd] at h0
      omega
    · intro hcd
      have h0 : idCount (reconcile log s e keys table) d = 0 := by
        rw [master, if_pos hcd]
      exact (rowExists_false_iff _ _).mpr h0
  · intro heq hnex
    have h0 : idCount table d = 0 := (rowExists_false_iff table d).mp hnex
    have h1 : ¬createdCount log s e d < deletedCount log s e d := by omega
    have h2 : ¬deletedCount log s e d < createdCount log s e d := by omega
    refine (rowExists_false_iff _ _).mpr ?_
    rw [master, if_neg h1, h0]
    simp [h2]
  · intro hdc hnex
    have h0 : idCount table d = 0 := (rowExists_false_iff table d).mp hnex
    have hcd : ¬createdCount log s e d < deletedCount log s e d := Nat.lt_asymm hdc
    constructor
    · rw [master, if_neg hcd, h0]
      simp [hdc, hnex]
    · intro r hr hrd k
      rcases (mem_reconcile log s e keys table r).mp hr with ⟨r0, hr0src, hkeep, hrdef⟩
      have hiddef : r.documentId = r0.documentId := by
        rw [hrdef]
        by_cases h : ((aggregatedIds log s e).contains r0.documentId) = true
        · rw [if_pos h]
          rfl
        · rw [if_neg h]
      have hr0d : r0.documentId = d := by rw [← hiddef, hrd]
      rcases hr0src with hmem | hins
      · exfalso
        have : rowExists table d = true := (rowExists_iff table d).mpr ⟨r0, hmem, hr0d⟩
        rw [hnex] at this
        cases this
      · rcases List.mem_map.mp hins with ⟨d0, _, hr0eq⟩
        have hd0d : d0 = d := by rw [← hr0eq] at hr0d; exact hr0d
        subst hd0d
        have hro : r = updateRow log s e keys (insertedRow log s e keys d0) := by
          rw [hrdef, if_pos (by rw [hr0d]; exact hcont), ← hr0eq]
        rw [hro]
        by_cases hk : keys.contains k = true
        · cases hagg : aggField log s e d0 k with
          | some v => simp [updateRow, insertedRow, hk, hagg]
          | none => simp [updateRow, insertedRow, hk, hagg]
        · have hk2 : ¬k ∈ keys := fun hkk => hk ((contains_iff_mem keys k).mpr hkk)
          simp [updateRow, insertedRow, hk, hk2]

theorem C1_witness :
    createdCount logC1 0 10 "x" = 1 ∧ deletedCount logC1 0 10 "x" = 1 ∧
    rowExists (reconcile logC1 0 10 ["f"] []) "x" = false :=
  ⟨by decide, by decide,
    (C1_insert_delete_tiebreak logC1 0 10 ["f"] [] "x" (by decide) (by decide)).2.2.1
      (by decide) (by decide)⟩

/-- Claim C2: each field of the aggregate is resolved independently to the
most recent non-null value among the considered tracker-log entries in
timestamp-descending order (per-field last-write-wins: the aggregate is
NULL exactly when every considered entry is NULL in that field, and any
produced value is the value of a considered entry whose timestamp bounds
every other non-null considered entry); and for a previously absent id
with two CREATED and zero DELETED entries in the window, exactly one row
is inserted carrying, for each configured field, that latest non-null
value. -/
theorem C2_per_field_lww {V : Type} (log : List (Entry V)) (s e : Nat)
    (keys : List String) (table : List (Row V)) (d : String)
    (hd : d ∈ aggregatedIds log s e) :
    (∀ k : String, (aggField log s e d k = none ↔
        ∀ x ∈ consideredEntries log s e d, x.value k = none)) ∧
    (∀ (k : String) (v : V), aggField log s e d k = some v →
      ∃ x ∈ consideredEntries log s e d, x.value k = some v ∧
        ∀ y ∈ consideredEntries log s e d,
          (y.value k).isSome = true → y.timestamp ≤ x.timestamp) ∧
    (createdCount log s e d = 2 → deletedCount log s e d = 0 →
      rowExists table d = false →
      idCount (reconcile log s e keys table) d = 1 ∧
      ∀ r ∈ reconcile log s e keys table, r.documentId = d →
        ∀ k : String, keys.contains k = true →
          r.value k = aggField log s e d k) := by
  have hcont : (aggregatedIds log s e).contains d = true := (contains_iff_mem _ _).mpr hd
  refine ⟨fun k => aggField_none_iff log s e d k,
    fun k v h => aggField_some_max log s e d k v h, ?_⟩
  intro hc2 hd0 hnex
  have hdc : deletedCount log s e d < createdCount log s e d := by omega
  have hcd : ¬createdCount log s e d < deletedCount log s e d := by omega
  have h0 : idCount table d = 0 := (rowExists_false_iff table d).mp hnex
  constructor
  · rw [idCount_reconcile_cases log s e keys table d hd, if_neg hcd, h0]
    simp [hdc, hnex]
  · intro r hr hrd k hk
    rcases (mem_reconcile log s e keys table r).mp hr with ⟨r0, hr0src, _, hrdef⟩
    have hiddef : r.documentId = r0.documentId := by
      rw [hrdef]
      by_cases h : ((aggregatedIds log s e).contains r0.documentId) = true
      · rw [if_pos h]
        rfl
      · rw [if_neg h]
    have hr0d : r0.documentId = d := by rw [← hiddef, hrd]
    rcases hr0src with hmem | hins
    · exfalso
      have : rowExists table d = true := (rowExists_iff table d).mpr ⟨r0, hmem, hr0d⟩
      rw [hnex] at this
      cases this
    · rcases List.mem_map.mp hins with ⟨d0, _, hr0eq⟩
      have hd0d : d0 = d := by rw [← hr0eq] at hr0d; exact hr0d
      subst hd0d
      have hro : r = updateRow log s e keys (insertedRow log s e keys d0) := by
        rw [hrdef, if_pos (by rw [hr0d]; exact hcont), ← hr0eq]
      rw [hro]
      have hk2 : k ∈ keys := (contains_iff_mem keys k).mp hk
      cases hagg : aggField log s e d0 k with
      | some v => simp [updateRow, insertedRow, hk, hk2, hagg]
      | none => simp [updateRow, insertedRow, hk, hk2, hagg]

theorem C2_witness :
    aggField logC2 0 10 "x" "f" = some 20 ∧
    idCount (reconcile logC2 0 10 ["f"] []) "x" = 1 :=
  ⟨by decide,
    ((C2_per_field_lww logC2 0 10 ["f"] [] "x" (by decide)).2.2
      (by decide) (by decide) (by decide)).1⟩

/-- Claim C3 counterexample: document `x` has an existing main-table row
and is aggregated with `deletedCount = 1 > createdCount = 0`; the claim as
stated promises the existing row is updated field-by-field regardless of
the count comparison, but the transaction deletes the row, so no row for
`x` survives to carry updated (or preserved) field values. -/
theorem C3_counterexample :
    ("x" ∈ aggregatedIds logC3 0 10) ∧
    rowExists tableC3 "x" = true ∧
    deletedCount logC3 0 10 "x" = 1 ∧ createdCount logC3 0 10 "x" = 0 ∧
    rowExists (reconcile logC3 0 10 ["f"] tableC3) "x" = false := by decide

/-- Claim C3 (amended): for every aggregated document id that has an
existing main-table row, provided `deletedCount` does not exceed
`createdCount` (otherwise the row is deleted instead), the surviving row
is updated field-by-field from the aggregate exactly where the aggregate
produced a non-null value, and every configured field with a null
aggregate — as well as every column outside the configured fields — keeps
its existing value. -/
theorem C3_update_preserves_unless_deleted {V : Type} (log : List (Entry V))
    (s e : Nat) (keys : List String) (table : List (Row V)) (d : String)
    (r0 : Row V) (hd : d ∈ aggregatedIds log s e) (hu : idCount table d ≤ 1)
    (hr0 : r0 ∈ table) (hr0d : r0.documentId = d)
    (hnd : ¬createdCount log s e d < deletedCount log s e d) :
    idCount (reconcile log s e keys table) d = 1 ∧
    ∀ r ∈ reconcile log s e keys table, r.documentId = d →
      (∀ k : String, keys.contains k = true →
        r.value k = (match aggField log s e d k with
          | some v => some v
          | none => r0.value k)) ∧
      (∀ k : String, keys.contains k = false → r.value k = r0.value k) := by
  have hcont : (aggregatedIds log s e).contains d = true := (contains_iff_mem _ _).mpr hd
  have hex : rowExists table d = true := (rowExists_iff table d).mpr ⟨r0, hr0, hr0d⟩
  have hne := (rowExists_iff_idCount table d).mp hex
  have hpos : 0 < idCount table d := Nat.pos_of_ne_zero hne
  constructor
  · rw [idCount_reconcile_cases log s e keys table d hd, if_neg hnd]
    have hcondf : ¬(deletedCount log s e d < createdCount log s e d ∧
        rowExists table d = false) := by
      rintro ⟨_, hfalse⟩
      rw [hex] at hfalse
      cases hfalse
    rw [if_neg hcondf]
    omega
  · intro r hr hrd
    rcases (mem_reconcile log s e keys table r).mp hr with ⟨r1, hr1src, _, hrdef⟩
    have hiddef : r.documentId = r1.documentId := by
      rw [hrdef]
      by_cases h : ((aggregatedIds log s e).contains r1.documentId) = true
      · rw [if_pos h]
        rfl
      · rw [if_neg h]
    have hr1d : r1.documentId = d := by rw [← hiddef, hrd]
    rcases hr1src with hmem | hins
    · have hr1r0 : r1 = r0 :=
        countP_le_one_unique hu hmem hr0 (by simp [hr1d]) (by simp [hr0d])
      subst hr1r0
      have hro : r = updateRow log s e keys r1 := by
        rw [hrdef, if_pos (by rw [hr1d]; exact hcont)]
      rw [hro]
      constructor
      · intro k hk
        simp [updateRow, hk, hr1d, (contains_iff_mem keys k).mp hk]
      · intro k hk
        have hk2 : ¬k ∈ keys := fun hkk => by
          rw [(contains_iff_mem keys k).mpr hkk] at hk
          cases hk
        simp [updateRow, hk2]
    · exfalso
      rcases List.mem_map.mp hins with ⟨d0, hd0f, hr1eq⟩
      have hd0d : d0 = d := by rw [← hr1eq] at hr1d; exact hr1d
      subst hd0d
      rcases List.mem_filter.mp hd0f with ⟨_, hq⟩
      rcases Bool.and_eq_true_iff.mp hq with ⟨_, hnr⟩
      rw [hex] at hnr
      cases hnr

theorem C3_witness :
    aggField logC3w 0 10 "x" "f" = some 7 ∧
    idCount (reconcile logC3w 0 10 ["f"] tableC3) "x" = 1 :=
  ⟨by decide,
    (C3_update_preserves_unless_deleted logC3w 0 10 ["f"] tableC3 "x" ⟨"x", vOf "f" 1⟩
      (by decide) (by decide) (List.mem_cons_self _ _) rfl (by decide)).1⟩

/-- Claim C4 counterexample: the consolidation window is not half-open.
A CREATED entry whose timestamp equals the window's end time 10 is
aggregated (the id is produced by the temp table and the entry is counted
by `createdCount`), whereas the claim says an entry at `endTime` is
excluded. -/
theorem C4_counterexample :
    ("x" ∈ aggregatedIds logC4 0 10) ∧
    createdCount logC4 0 10 "x" = 1 ∧
    (consideredEntries logC4 0 10 "x").length = 1 := by decide

/-- Claim C4 (amended): every consolidation run aggregates exactly the
tracker-log entries of the id that pass the latest-CREATED filter and
whose timestamp lies in the closed interval `[startTime, endTime]`
(BigQuery `BETWEEN` is inclusive, so an entry at `endTime` is included);
`startTime` is the persisted checkpoint (or the far-past sentinel on the
first run) and `endTime` is the time the run starts. -/
theorem C4_window_closed {V : Type} (log : List (Entry V)) (s e : Nat) (d : String)
    (x : Entry V) (keys : List String) (tbl : List (Row V)) (cp eT fT : Nat) :
    (x ∈ consideredEntries log s e d ↔
      x ∈ log ∧ x.documentId = d ∧ latestCreated log d ≤ x.timestamp ∧
        s ≤ x.timestamp ∧ x.timestamp ≤ e) ∧
    (inWindow s e e = decide (s ≤ e)) ∧
    ((runOnce log keys ⟨some cp, tbl⟩ eT fT true).table =
      reconcile log cp eT keys tbl) ∧
    ((runOnce log keys ⟨none, tbl⟩ eT fT true).table =
      reconcile log farPast eT keys tbl) := by
  refine ⟨mem_consideredEntries log s e d x, ?_, rfl, rfl⟩
  simp [inWindow]

theorem C4_witness :
    (⟨ChangeType.created, 10, "x", vOf "f" 10⟩ : Entry Nat) ∈
      consideredEntries logC4 0 10 "x" :=
  (C4_window_closed logC4 0 10 "x" ⟨ChangeType.created, 10, "x", vOf "f" 10⟩
      [] [] 0 0 0).1.mpr
    ⟨List.mem_cons_self _ _, rfl, by decide, by decide, by decide⟩

/-- Claim C5 (code bug): the successful run writes a fresh
`DateTime.now()` (here 12) into `lastRunDate` instead of the window's end
time (here 10), so an entry recorded at time 11 — after the window closed
but before the checkpoint write — lies in this run's window `[5, 10]` for
no document and in no later window `[12, _]` either: it is never
consolidated.  A failed run leaves the state untouched, and the scheduled
tick processes every configuration independently of the others'
outcomes. -/
theorem C5_checkpoint_overshoot :
    10 < 11 ∧ 11 < 12 ∧
    (runOnce logC5 ["f"] ⟨some 5, ([] : List (Row Nat))⟩ 10 12 true).checkpoint =
      some 12 ∧
    (consideredEntries logC5 5 10 "x").length = 0 ∧
    (∀ e2 : Nat, (consideredEntries logC5 12 e2 "x").length = 0) ∧
    (∀ st : SyncState Nat, runOnce logC5 ["f"] st 10 12 false = st) ∧
    (∀ (i : TickInput Nat) (l : List (TickInput Nat)),
      runTick (i :: l) =
        runOnce i.log i.keys i.st i.endTime i.finishTime i.success :: runTick l) := by
  refine ⟨by decide, by decide, by decide, by decide, ?_, fun st => rfl, fun i l => rfl⟩
  intro e2
  simp [consideredEntries, logC5, inWindow]

theorem safeFloat_shape (q : ℚ) :
    (safeFloat q).den = 1 ∨ ∃ n : ℤ, safeFloat q = (n : ℚ) / 100 := by
  unfold safeFloat
  by_cases h : q.den = 1
  · left
    rw [if_pos h]
    exact h
  · right
    rw [if_neg h]
    exact ⟨⌊q * 100 + 1 / 2⌋, rfl⟩

/-- Claim C6 counterexample: for a NUMERIC/FLOAT64/INT64 field with no
transform, the raw string value `"Infinity"` parses to the `+Infinity`
double, which passes the falsy and `typeof` checks and survives
`safeFloat` unchanged, so the emitted value is `+Infinity` — neither null
nor a finite number with at most two fractional decimal digits. -/
theorem C6_counterexample :
    coerceNumericField none (JSValue.vstr "Infinity") = JSValue.vinf false ∧
    JSValue.vinf false ≠ JSValue.vnull :=
  ⟨rfl, fun h => JSValue.noConfusion h⟩

set_option maxRecDepth 40000 in
unseal Rat.add Rat.mul Rat.inv in
/-- Claim C6 (amended): for every NUMERIC/FLOAT64/INT64 field (with any
configured transform) and every input value, the coerced output is null,
one of the two Infinity doubles (reached from an Infinity value or from a
raw string parsing to Infinity — the `Infinity` literal or a decimal
literal beyond the double overflow threshold, such as `"1e400"` — and
passed through `safeFloat` unchanged), or a finite number with at most
two fractional decimal digits unless it is an integer; the raw string
value `"3.14159"` still coerces to `3.14`. -/
theorem C6_numeric_null_infinite_or_two_decimals :
    (∀ (m : Option (JSValue → JSValue)) (v : JSValue),
      coerceNumericField m v = JSValue.vnull ∨
      (∃ neg : Bool, coerceNumericField m v = JSValue.vinf neg) ∨
      ∃ q : ℚ, coerceNumericField m v = JSValue.vnum q ∧
        (q.den = 1 ∨ ∃ n : ℤ, q = (n : ℚ) / 100)) ∧
    coerceNumericField none (JSValue.vstr "3.14159") = JSValue.vnum (157 / 50) ∧
    coerceNumericField none (JSValue.vstr "1e400") = JSValue.vinf false := by
  refine ⟨?_, ?_, ?_⟩
  · intro m v
    have hfin : ∀ n : JSNum, numFinish n = JSValue.vnull ∨
        (∃ neg : Bool, numFinish n = JSValue.vinf neg) ∨
        ∃ q : ℚ, numFinish n = JSValue.vnum q ∧
          (q.den = 1 ∨ ∃ k : ℤ, q = (k : ℚ) / 100) := by
      intro n
      cases n with
      | nan => exact Or.inl rfl
      | inf neg => exact Or.inr (Or.inl ⟨neg, rfl⟩)
      | finite q => exact Or.inr (Or.inr ⟨safeFloat q, rfl, safeFloat_shape q⟩)
    cases hv : applyMethod m v with
    | vstr s =>
      rw [show coerceNumericField m v = numFinish (parseFloat s) from by
        simp [coerceNumericField, hv]]
      exact hfin _
    | vnum q =>
      rw [show coerceNumericField m v = numFinish (JSNum.finite q) from by
        simp [coerceNumericField, hv]]
      exact hfin _
    | vinf neg =>
      rw [show coerceNumericField m v = numFinish (JSNum.inf neg) from by
        simp [coerceNumericField, hv]]
      exact hfin _
    | vnan =>
      rw [show coerceNumericField m v = numFinish JSNum.nan from by
        simp [coerceNumericField, hv]]
      exact hfin _
    | vundef => exact Or.inl (by simp [coerceNumericField, hv])
    | vnull => exact Or.inl (by simp [coerceNumericField, hv])
    | vbool b => exact Or.inl (by simp [coerceNumericField, hv])
    | varr l => exact Or.inl (by simp [coerceNumericField, hv])
    | vobj l => exact Or.inl (by simp [coerceNumericField, hv])
  · have h1 : parseFloat "3.14159" = JSNum.finite (314159 / 100000) := by decide
    have h2 : safeFloat (314159 / 100000) = 157 / 50 := by decide
    simp [coerceNumericField, applyMethod, h1, numFinish, h2]
  · have h3 : parseFloat "1e400" = JSNum.inf false := by decide
    simp [coerceNumericField, applyMethod, h3, numFinish]

/-- Claim C8 counterexample: with no transform configured, a composite
(object) input is serialized — the serialization is defined — yet the
emitted column value is null, not the JSON string: the string produced by
`JSON.stringify` is itself a primitive and is discarded by the
primitive check, so composite values are never accepted either. -/
theorem C8_counterexample :
    (jsonStringify (JSValue.vobj [("a", JSValue.vnum 1)])).isSome = true ∧
    coerceJSONField none (JSValue.vobj [("a", JSValue.vnum 1)]) = JSValue.vnull :=
  ⟨rfl, rfl⟩

/-- Claim C8 (amended): for every JSON field with no transform configured,
the input value is serialized to a JSON string, and since that string is
itself a primitive it is then rejected: every input whose serialization is
defined — composite or primitive alike — is emitted as null (only an
undefined input passes through, as undefined). A non-null JSON column
value can only be produced by a transform returning a non-primitive. -/
theorem C8_json_always_null :
    coerceJSONField none JSValue.vundef = JSValue.vundef ∧
    (∀ v : JSValue, v ≠ JSValue.vundef → coerceJSONField none v = JSValue.vnull) := by
  refine ⟨rfl, ?_⟩
  intro v hv
  cases v with
  | vundef => exact absurd rfl hv
  | vnull => rfl
  | vbool b => rfl
  | vnum q => rfl
  | vinf neg => rfl
  | vnan => rfl
  | vstr s => rfl
  | varr l => rfl
  | vobj l => rfl

theorem C8_witness : coerceJSONField none (JSValue.varr []) = JSValue.vnull :=
  C8_json_always_null.2 (JSValue.varr []) (fun h => JSValue.noConfusion h)

/-- Claim C10: backfill pagination stops as soon as a page contributes
zero coerced rows — when every document of the fetched page fails
coercion, the loop breaks before advancing the cursor and nothing from the
remaining documents is backfilled, even when further pages exist. -/
theorem C10_backfill_stops_on_empty_page {D R : Type} (coerce : D → Option R)
    (b : Nat) (docs : List D)
    (h : ∀ x ∈ docs.take (b + 1), coerce x = none) :
    backfillLoop coerce b docs = [] := by
  have hrows : (docs.take (b + 1)).filterMap coerce = [] :=
    List.filterMap_eq_nil_iff.mpr h
  rw [backfillLoop, hrows]
  simp

theorem C10_witness :
    coerceC10 1 = none ∧ 0 + 1 < ([1, 2, 3] : List Nat).length ∧
    backfillLoop coerceC10 0 [1, 2, 3] = [] :=
  ⟨rfl, by decide, C10_backfill_stops_on_empty_page coerceC10 0 [1, 2, 3] (by decide)⟩

theorem mem_asList (x y : JSValue) : x ∈ asList y ↔ spreadsTo y x := by
  cases y
  case varr a =>
    constructor
    · intro hxa
      exact Or.inl ⟨a, rfl, hxa⟩
    · rintro (⟨a2, ha2, hxa⟩ | ⟨hno, rfl⟩)
      · injection ha2 with h2
        subst h2
        exact hxa
      · exact absurd rfl (hno a)
  all_goals
    constructor
    · intro hx
      rcases List.mem_singleton.mp hx with rfl
      exact Or.inr ⟨fun a h => JSValue.noConfusion h, rfl⟩
    · rintro (⟨a2, ha2, _⟩ | ⟨_, rfl⟩)
      · exact JSValue.noConfusion ha2
      · exact List.mem_singleton.mpr rfl

theorem mem_spread1 (x : JSValue) :
    ∀ L : List JSValue, x ∈ spread1 L ↔ ∃ y ∈ L, spreadsTo y x := by
  intro L
  induction L with
  | nil => simp [spread1]
  | cons h t ih =>
    show x ∈ asList h ++ spread1 t ↔ _
    rw [List.mem_append, ih]
    constructor
    · rintro (hxa | ⟨y, hyt, hy⟩)
      · exact ⟨h, List.mem_cons_self _ _, (mem_asList x h).mp hxa⟩
      · exact ⟨y, List.mem_cons_of_mem _ hyt, hy⟩
    · rintro ⟨y, hym, hy⟩
      rcases List.mem_cons.mp hym with rfl | hyt
      · exact Or.inl ((mem_asList x y).mpr hy)
      · exact Or.inr ⟨y, hyt, hy⟩

/-- Claim C7 counterexample: for an ARRAY field the code filters falsy
elements first and only then flattens (`.filter(Boolean).flat()`), so the
falsy element `0` sitting inside the nested array `[[0]]` survives into
the output `[0]` — contradicting the claim that no element of the output
is falsy. -/
theorem C7_counterexample :
    coerceArrayField none none (JSValue.varr [JSValue.varr [JSValue.vnum 0]]) =
      JSValue.varr [JSValue.vnum 0] ∧
    jsFalsy (JSValue.vnum 0) = true := ⟨rfl, rfl⟩

/-- Claim C7 (amended): for every ARRAY field (any formater/transform
configuration) and every input value, the coerced output is an array
obtained from the normalized/formatted element list by first removing
falsy elements and then flattening one level: its elements are exactly the
non-falsy non-array elements of that list together with all elements
(falsy or nested ones included) of its non-falsy array elements. -/
theorem C7_array_filter_then_flatten (f : Option String)
    (m : Option (JSValue → JSValue)) (v : JSValue) :
    ∃ l : List JSValue,
      coerceArrayField f m v = JSValue.varr l ∧
      ∀ x : JSValue, x ∈ l ↔
        ∃ y ∈ preArray f m v, jsFalsy y = false ∧ spreadsTo y x := by
  refine ⟨spread1 ((preArray f m v).filter (fun z => !jsFalsy z)), rfl, ?_⟩
  intro x
  rw [mem_spread1]
  constructor
  · rintro ⟨y, hyf, hy⟩
    rcases List.mem_filter.mp hyf with ⟨hym, hnb⟩
    refine ⟨y, hym, ?_, hy⟩
    revert hnb
    cases jsFalsy y <;> simp
  · rintro ⟨y, hym, hfb, hy⟩
    exact ⟨y, List.mem_filter.mpr ⟨hym, by rw [hfb]; rfl⟩, hy⟩

theorem C7_witness :
    ∃ l : List JSValue,
      coerceArrayField none none (JSValue.vstr "tag1") = JSValue.varr l ∧
      JSValue.vstr "tag1" ∈ l := by
  rcases C7_array_filter_then_flatten none none (JSValue.vstr "tag1") with ⟨l, hl, hmem⟩
  exact ⟨l, hl, (hmem _).mpr ⟨JSValue.vstr "tag1", List.mem_singleton.mpr rfl, rfl,
    Or.inr ⟨fun a h => JSValue.noConfusion h, rfl⟩⟩⟩

theorem le_maxTs {V : Type} : ∀ (l : List (Entry V)) (x : Entry V),
    x ∈ l → x.timestamp ≤ maxTs l := by
  intro l
  induction l with
  | nil => intro x hx; cases hx
  | cons a t ih =>
    intro x hx
    simp only [maxTs, List.foldr_cons]
    rcases List.mem_cons.mp hx with rfl | hxt
    · omega
    · have := ih x hxt
      simp only [maxTs] at this
      omega

theorem maxTs_le {V : Type} : ∀ (l : List (Entry V)) (b : Nat),
    (∀ x ∈ l, x.timestamp ≤ b) → maxTs l ≤ b := by
  intro l
  induction l with
  | nil => intro b _; exact Nat.zero_le b
  | cons a t ih =>
    intro b h
    simp only [maxTs, List.foldr_cons]
    have h1 := h a (List.mem_cons_self a t)
    have h2 := ih b (fun x hx => h x (List.mem_cons_of_mem a hx))
    simp only [maxTs] at h2
    omega

theorem maxTs_attained {V : Type} : ∀ l : List (Entry V),
    maxTs l = 0 ∨ ∃ x ∈ l, x.timestamp = maxTs l := by
  intro l
  induction l with
  | nil => exact Or.inl rfl
  | cons a t ih =>
    simp only [maxTs, List.foldr_cons]
    by_cases hat : (t.foldr (fun x m => max x.timestamp m) 0) ≤ a.timestamp
    · exact Or.inr ⟨a, List.mem_cons_self a t, by omega⟩
    · rcases ih with h0 | ⟨x, hxt, hxe⟩
      · exfalso
        simp only [maxTs] at h0
        omega
      · refine Or.inr ⟨x, List.mem_cons_of_mem a hxt, ?_⟩
        simp only [maxTs] at hxe
        omega

theorem latestCreated_filter_keep {V : Type} (log : List (Entry V)) (d : String) :
    latestCreated (log.filter (fun x =>
      (!decide (x.documentId = d)) || decide (latestCreated log d ≤ x.timestamp))) d =
    latestCreated log d := by
  generalize hM : latestCreated log d = M
  unfold latestCreated at hM ⊢
  rw [List.filter_filter]
  have hsub : log.filter (fun x =>
      (decide (x.documentId = d) && decide (x.changeType = ChangeType.created)) &&
        ((!decide (x.documentId = d)) || decide (M ≤ x.timestamp))) =
      (log.filter (fun x => decide (x.documentId = d) &&
        decide (x.changeType = ChangeType.created))).filter
        (fun x => decide (M ≤ x.timestamp)) := by
    rw [List.filter_filter]
    refine List.filter_congr ?_
    intro x _
    by_cases hid : x.documentId = d
    · cases hc : decide (x.changeType = ChangeType.created) <;>
        cases hm : decide (M ≤ x.timestamp) <;> simp [hid, hc, hm]
    · simp [hid]
  rw [hsub]
  rcases maxTs_attained (log.filter (fun x => decide (x.documentId = d) &&
      decide (x.changeType = ChangeType.created))) with h0 | ⟨x0, hx0, hx0e⟩
  · have hM0 : M = 0 := by omega
    subst hM0
    have hall : (log.filter (fun x => decide (x.documentId = d) &&
        decide (x.changeType = ChangeType.created))).filter
        (fun x => decide (0 ≤ x.timestamp)) =
        log.filter (fun x => decide (x.documentId = d) &&
          decide (x.changeType = ChangeType.created)) :=
      List.filter_eq_self.mpr (fun a _ => by simp)
    rw [hall, h0]
  · apply Nat.le_antisymm
    · apply maxTs_le
      intro x hx
      have hxL := List.mem_of_mem_filter hx
      have := le_maxTs _ x hxL
      omega
    · have hx0f : x0 ∈ (log.filter (fun x => decide (x.documentId = d) &&
          decide (x.changeType = ChangeType.created))).filter
          (fun x => decide (M ≤ x.timestamp)) := by
        refine List.mem_filter.mpr ⟨hx0, ?_⟩
        rw [decide_eq_true_eq]
        omega
      have := le_maxTs _ x0 hx0f
      omega

theorem consideredEntries_filter_keep {V : Type} (log : List (Entry V)) (s e : Nat)
    (d : String) :
    consideredEntries (log.filter (fun x =>
      (!decide (x.documentId = d)) || decide (latestCreated log d ≤ x.timestamp))) s e d =
    consideredEntries log s e d := by
  have hM := latestCreated_filter_keep log d
  unfold consideredEntries
  rw [hM, List.filter_filter]
  refine List.filter_congr ?_
  intro x _
  by_cases hid : x.documentId = d
  · by_cases hts : latestCreated log d ≤ x.timestamp
    · cases hw : inWindow s e x.timestamp <;> simp [hid, hts, hw]
    · simp [hid, hts]
  · simp [hid]

/-- Claim C9: the per-field aggregation considers only tracker-log entries
whose timestamp is at or after the timestamp of that document's most
recent CREATED entry over the entire log (`latestCreated`, which is the
epoch-zero sentinel when no CREATED entry exists): any produced field
value comes from such an entry, and dropping all entries of the id that
precede the latest CREATED entry leaves every aggregated field value
unchanged — values of a prior incarnation never contribute. -/
theorem C9_prior_incarnation_excluded {V : Type} (log : List (Entry V)) (s e : Nat)
    (d k : String) :
    (∀ x ∈ consideredEntries log s e d, latestCreated log d ≤ x.timestamp) ∧
    (∀ v : V, aggField log s e d k = some v →
      ∃ x ∈ log, x.documentId = d ∧ latestCreated log d ≤ x.timestamp ∧
        inWindow s e x.timestamp = true ∧ x.value k = some v) ∧
    (aggField (log.filter (fun x =>
      (!decide (x.documentId = d)) ||
        decide (latestCreated log d ≤ x.timestamp))) s e d k =
      aggField log s e d k) := by
  refine ⟨?_, ?_, ?_⟩
  · intro x hx
    exact ((mem_consideredEntries log s e d x).mp hx).2.2.1
  · intro v hv
    rcases aggField_some_max log s e d k v hv with ⟨x, hx, hxv, _⟩
    rcases (mem_consideredEntries log s e d x).mp hx with ⟨hxl, hxd, hlc, hs, he⟩
    exact ⟨x, hxl, hxd, hlc, by simp [inWindow, hs, he], hxv⟩
  · unfold aggField
    rw [consideredEntries_filter_keep]

theorem C9_witness :
    latestCreated logC9 "x" = 5 ∧ aggField logC9 0 10 "x" "f" = some 222 ∧
    ∃ x ∈ logC9, x.documentId = "x" ∧ latestCreated logC9 "x" ≤ x.timestamp ∧
      inWindow 0 10 x.timestamp = true ∧ x.value "f" = some 222 :=
  ⟨by decide, by decide,
    (C9_prior_incarnation_excluded logC9 0 10 "x" "f").2.1 222 (by decide)⟩
